import Mathlib

/-!
Verification of the charliebot IRC markov bot (sources `src/log_parse.rs` and
`src/main.rs`) against its natural-language specification.

The Rust sources are shallowly embedded: strings are `List Char` (or Lean
`String` wrappers), the markov chain payload (the external `markov::Chain`
collaborator) is modelled opaquely as the list of messages fed into it, time
(`std::time::Instant`) is a `Nat`, and filesystem / IO effects are modelled by
explicit oracle functions.
-/

namespace Charliebot

/-! ### Character predicates

`isWs` models Rust `char::is_ascii_whitespace` (space, tab, line feed, form
feed, carriage return).  Rust `str::trim` trims Unicode whitespace; it is
modelled here over the ASCII whitespace subset (all data reaching `trim` in
this development is ASCII).  `isDeco` is the predicate of the
`trim_matches` call in `normalize_nick`, and `asciiLowerChar` models
`char::to_ascii_lowercase`. -/

def isWs (c : Char) : Bool :=
  c = ' ' || c = '\t' || c = '\n' || c = '\x0c' || c = '\r'

def isDeco (c : Char) : Bool := c = '@' || c = '>'

def asciiLowerChar (c : Char) : Char :=
  if 65 ≤ c.toNat ∧ c.toNat ≤ 90 then Char.ofNat (c.toNat + 32) else c

/-! ### String primitives on `List Char` -/

/-- Rust `str::trim` (over the ASCII whitespace subset): drop whitespace from
both ends. -/
def trimL (l : List Char) : List Char :=
  ((l.dropWhile isWs).reverse.dropWhile isWs).reverse

/-- Rust `str::trim_matches(|c| c == '@' || c == '>')`: repeatedly drop `@`/`>`
from both ends. -/
def trimMatchesL (l : List Char) : List Char :=
  ((l.dropWhile isDeco).reverse.dropWhile isDeco).reverse

/-- Rust `str::to_ascii_lowercase`. -/
def lowerL (l : List Char) : List Char := l.map asciiLowerChar

/-- `log_parse.rs::normalize_nick`:
`s.trim().trim_matches(|c| c == '@' || c == '>').to_ascii_lowercase()`. -/
def normalizeNickL (l : List Char) : List Char := lowerL (trimMatchesL (trimL l))

/-- `normalize_nick` as a function on Lean strings. -/
def normalize_nick (s : String) : String := ⟨normalizeNickL s.data⟩

/-! ### The log parser (`log_parse.rs`) -/

/-- One step of the `splitn(4, is_ascii_whitespace)` iterator: the piece before
the first whitespace character, and (when a separator was found) the remainder
after that single separator character.  `none` as second component means the
iterator is exhausted after this piece. -/
def splitFirst (l : List Char) : List Char × Option (List Char) :=
  (l.takeWhile (fun c => !isWs c),
   match l.dropWhile (fun c => !isWs c) with
   | [] => none
   | _ :: rest => some rest)

/-- `log_parse.rs::Entry` (the `date`/`time`/`nick`/`msg` fields of a parsed
log line; `nick` is already normalized). -/
structure Entry where
  date : List Char
  time : List Char
  nick : List Char
  msg : List Char
deriving Repr, DecidableEq

/-- `Entry::from_line`: four `splitter.next()?` calls against
`line.splitn(4, |c| c.is_ascii_whitespace())`, normalization of the third
field, and the join/part/action marker filter. -/
def fromLine (line : List Char) : Option Entry :=
  match (splitFirst line).2 with
  | none => none
  | some rest1 =>
    match (splitFirst rest1).2 with
    | none => none
    | some rest2 =>
      match (splitFirst rest2).2 with
      | none => none
      | some msg =>
        if normalizeNickL (splitFirst rest2).1 = "-->".data ∨
            normalizeNickL (splitFirst rest2).1 = "<--".data ∨
            normalizeNickL (splitFirst rest2).1 = "--".data then none
        else some ⟨(splitFirst line).1, (splitFirst rest1).1,
          normalizeNickL (splitFirst rest2).1, msg⟩

/-- `log_parse.rs::ParseRes`. -/
inductive ParseRes where
  | Done : ParseRes
  | Skip : ParseRes
  | Yield : Entry → ParseRes
deriving Repr, DecidableEq

/-- `Parser::next_entry` on a successfully read line: `Entry::from_line`
applied to the trimmed buffer, `Skip` when it returns nothing. -/
def nextEntry (line : List Char) : ParseRes :=
  match fromLine (trimL line) with
  | some e => ParseRes.Yield e
  | none => ParseRes.Skip

/-- The stream of `next_entry` results for a file with the given lines:
one result per line, then `Done` at end of input. -/
def parseLines (lines : List (List Char)) : List ParseRes :=
  lines.map nextEntry ++ [ParseRes.Done]

/-! ### Chains and model building (`main.rs`) -/

/-- `main.rs::Chain`.  The external `markov::Chain<String>` payload `c` is
opaque to the core; it is modelled by the list of messages fed into it via
`feed_str`, in order (one element per `feed_str` call). -/
structure Chain where
  nick : List Char
  fed : List (List Char)
deriving Repr, DecidableEq

/-- `Chain::new`. -/
def Chain.new (n : List Char) : Chain := ⟨n, []⟩

/-- `HashMap::get` / `contains_key`: the nick-keyed hash maps of `main.rs` are
modelled as association lists with unique keys, looked up by this function. -/
def hmGet : List (List Char × α) → List Char → Option α
  | [], _ => none
  | (k, c) :: rest, nick => if k = nick then some c else hmGet rest nick

/-- Mutation of one binding through `HashMap::get_mut`: apply `f` to the value
bound to `k`, leaving every other binding untouched. -/
def hmModify : List (List Char × α) → List Char → (α → α) → List (List Char × α)
  | [], _, _ => []
  | (k', c) :: rest, k, f =>
    if k' = k then (k, f c) :: hmModify rest k f else (k', c) :: hmModify rest k f

/-- The conditional insert in `read_file`:
`if !chains.contains_key(&record.nick) { chains.insert(record.nick, Chain::new(..)) }`. -/
def insertIfAbsent (m : List (List Char × Chain)) (nick : List Char) :
    List (List Char × Chain) :=
  if hmGet m nick = none then m ++ [(nick, Chain.new nick)] else m

/-- The body of `read_file`'s `Yield` arm: insert-if-absent, then
`chains.get_mut(&record.nick).unwrap()` and `c.c.feed_str(record.msg)`.
The `none` arm is the `unwrap` panic case, shown unreachable below. -/
def feedEntry (m : List (List Char × Chain)) (e : Entry) :
    List (List Char × Chain) :=
  match hmGet (insertIfAbsent m e.nick) e.nick with
  | some c =>
    hmModify (insertIfAbsent m e.nick) e.nick (fun _ => { c with fed := c.fed ++ [e.msg] })
  | none => insertIfAbsent m e.nick

/-- `read_file`'s loop over `parser.next_entry()` results: `Skip` is ignored,
`Done` breaks, `Yield` feeds the entry. -/
def buildChains : List (List Char × Chain) → List ParseRes → List (List Char × Chain)
  | m, [] => m
  | m, ParseRes.Done :: _ => m
  | m, ParseRes.Skip :: rest => buildChains m rest
  | m, ParseRes.Yield e :: rest => buildChains (feedEntry m e) rest

/-- `main.rs::read_file` on a log file with the given lines. -/
def readFile (lines : List (List Char)) : List (List Char × Chain) :=
  buildChains [] (parseLines lines)

/-! ### Paths (`main.rs::path_for_nick`) -/

/-- Split a file name around its last `.`: `some (before, after)` for the last
dot, `none` when the name has no dot.  Helper for Rust
`PathBuf::set_extension` semantics. -/
def splitLastDot : List Char → Option (List Char × List Char)
  | [] => none
  | c :: rest =>
    match splitLastDot rest with
    | some (b, a) => some (c :: b, a)
    | none => if c = '.' then some ([], rest) else none

/-- Rust `PathBuf::set_extension("bin")` on a single normal path component:
a component whose stem is nonempty has its extension (the part after the last
dot) replaced by `bin`; otherwise `.bin` is appended.  Modelled for file names
that are one normal component (no path separator, not `.`/`..`). -/
def setExtensionBinL (f : List Char) : List Char :=
  match splitLastDot f with
  | some (stem, _) => if stem = [] then f ++ ".bin".data else stem ++ ".bin".data
  | none => f ++ ".bin".data

/-- `main.rs::path_for_nick`: push the data directory, push the nick, then
`set_extension("bin")`.  Modelled for a nick that is a single normal path
component. -/
def path_for_nick (data_dir : String) (nick : String) : String :=
  data_dir ++ "/" ++ (⟨setExtensionBinL nick.data⟩ : String)

/-! ### The TTL cache (`main.rs::Chains`) -/

/-- `main.rs::CachedChain`: a chain plus its `last_used` timestamp
(`std::time::Instant` modelled as `Nat`). -/
structure CachedChain where
  last_used : Nat
  chain : Chain
deriving Repr, DecidableEq

/-- `main.rs::Chains`: data directory, TTL (seconds), and the nick-keyed cache
of loaded chains, modelled as an association list with unique keys. -/
structure Chains where
  data_dir : String
  ttl : Nat
  cached : List (List Char × CachedChain)

/-- `CachedChain::touch` applied through `get_mut`: refresh `last_used` of the
binding of `nick` to `now`. -/
def touchCached (m : List (List Char × CachedChain)) (nick : List Char) (now : Nat) :
    List (List Char × CachedChain) :=
  hmModify m nick (fun c => { c with last_used := now })

/-- `CachedChain::from_path`: open and deserialize the file at path `p`; the
filesystem-and-codec collaborator is the oracle `disk` from path to the
deserialized markov payload (`none` models any open/decode failure, which
`find_nick` observes through `.ok()`). -/
def CachedChain.from_path (disk : String → Option (List (List Char)))
    (nick : List Char) (p : String) (now : Nat) : Option CachedChain :=
  (disk p).map (fun c => ⟨now, ⟨nick, c⟩⟩)

/-- `Chains::cleanup`: `self.cached.retain(|_, c| now - c.last_used <= ttl)`.
`Instant` subtraction saturates at zero, as does `Nat` subtraction. -/
def cleanup (now : Nat) (st : Chains) : Chains :=
  { st with cached := st.cached.filter (fun p => now - p.2.last_used ≤ st.ttl) }

/-- `Chains::find_nick`: on a cache hit, touch the entry and return its chain;
on a miss, try `CachedChain::from_path` on `path_for_nick(data_dir, nick)`,
inserting and returning the loaded chain on success and returning `none` on
failure.  Returns the reply chain together with the updated cache state. -/
def find_nick (disk : String → Option (List (List Char))) (now : Nat)
    (st : Chains) (nick : List Char) : Option Chain × Chains :=
  match hmGet st.cached nick with
  | some c => (some c.chain, { st with cached := touchCached st.cached nick now })
  | none =>
    match CachedChain.from_path disk nick (path_for_nick st.data_dir ⟨nick⟩) now with
    | some c => (some c.chain, { st with cached := st.cached ++ [(nick, c)] })
    | none => (none, st)

/-! ### The reply policy (`main.rs::serve`) -/

/-- The fixed fallback reply of `serve`. -/
def fallbackReply : String := "oh noes :("

/-- The `skip_while` predicate of `serve`'s reply selection: `str::len` is the
UTF-8 byte length. -/
def lenOutside (s : String) : Bool := s.utf8ByteSize < 20 || s.utf8ByteSize > 100

/-- `serve`'s reply selection:
`chain.c.str_iter().take(500).skip_while(|s| s.len() < 20 || s.len() > 100).next().unwrap_or_else(|| "oh noes :(")`.
The model's lazy generation stream is modelled by the list of candidates it
yields (possibly fewer than 500 when the generator terminates early). -/
def selectReply (candidates : List String) : String :=
  (((candidates.take 500).dropWhile lenOutside).head?).getD fallbackReply

/-! ### The generate operation (`main.rs::generate`) -/

/-- The data directory constant `DATA_DIR`. -/
def DATA_DIR : String := "./data"

/-- The save loop of `generate`: iterate over the built chains, skip nicks
whose trim is empty, and write each remaining chain to
`path_for_nick(data_dir, nick)`; `File::create`/`serialize_into` failures
(oracle `writeOk` false) abort via `?`.  Returns the persisted nicks. -/
def saveChains (writeOk : String → Bool) (data_dir : String) :
    List (List Char × Chain) → Except Unit (List (List Char))
  | [] => Except.ok []
  | (nick, _) :: rest =>
    if trimL nick = [] then saveChains writeOk data_dir rest
    else if writeOk (path_for_nick data_dir ⟨nick⟩) then
      (saveChains writeOk data_dir rest).map (fun l => nick :: l)
    else Except.error ()

/-- `main.rs::generate`: create the data directory (oracle `dirOk`; failure
aborts), build the chains from the log file's lines with `read_file`, then
run the save loop. -/
def generate (dirOk : Bool) (writeOk : String → Bool) (data_dir : String)
    (lines : List (List Char)) : Except Unit (List (List Char)) :=
  if dirOk then saveChains writeOk data_dir (readFile lines)
  else Except.error ()

/-! ### Specification-side observation functions -/

/-- The `Yield` entries a `read_file` loop consumes before the first `Done`. -/
def entriesOf : List ParseRes → List Entry
  | [] => []
  | ParseRes.Done :: _ => []
  | ParseRes.Skip :: rest => entriesOf rest
  | ParseRes.Yield e :: rest => e :: entriesOf rest

/-- The messages attributed to identity `k` among the consumed entries,
in order. -/
def msgsFor (k : List Char) (rs : List ParseRes) : List (List Char) :=
  ((entriesOf rs).filter (fun e => e.nick = k)).map Entry.msg

/-- Modelled from the spec (for claim C3 only): the whitespace-delimited
fields of a line when splitting on *runs* of ASCII whitespace, i.e. adjacent
separators collapse and produce no empty field.  This follows the spec's
words; the source's `splitn(4, ..)` splits on single characters instead. -/
def wsRunFieldsSpec (l : List Char) : List (List Char) :=
  (l.splitOnP isWs).filter (fun f => !f.isEmpty)

/-! ### Character-level lemmas -/

theorem char_eq_iff (c d : Char) : c = d ↔ c.toNat = d.toNat := by
  constructor
  · intro h; rw [h]
  · intro h
    apply Char.ext
    exact UInt32.toNat.inj h

theorem toNat_ofNat_valid (n : Nat) (h : n < 55296) : (Char.ofNat n).toNat = n := by
  have hv : n.isValidChar := Or.inl h
  simp [Char.ofNat, hv, Char.ofNatAux, Char.toNat, BitVec.ofNatLt, UInt32.toNat]

theorem isWs_iff (c : Char) :
    isWs c = true ↔
      (c.toNat = 32 ∨ c.toNat = 9 ∨ c.toNat = 10 ∨ c.toNat = 12 ∨ c.toNat = 13) := by
  simp only [isWs, Bool.or_eq_true, decide_eq_true_eq, char_eq_iff]
  simp only [show (' ').toNat = 32 from rfl, show ('\t').toNat = 9 from rfl,
    show ('\n').toNat = 10 from rfl, show ('\x0c').toNat = 12 from rfl,
    show ('\r').toNat = 13 from rfl]
  tauto

theorem isDeco_iff (c : Char) : isDeco c = true ↔ (c.toNat = 64 ∨ c.toNat = 62) := by
  simp only [isDeco, Bool.or_eq_true, decide_eq_true_eq, char_eq_iff]
  simp only [show ('@').toNat = 64 from rfl, show ('>').toNat = 62 from rfl]

theorem toNat_lower (c : Char) :
    (asciiLowerChar c).toNat =
      if 65 ≤ c.toNat ∧ c.toNat ≤ 90 then c.toNat + 32 else c.toNat := by
  unfold asciiLowerChar
  split
  · next h => exact toNat_ofNat_valid _ (by omega)
  · rfl

theorem isWs_lower (c : Char) : isWs (asciiLowerChar c) = isWs c := by
  have h := toNat_lower c
  by_cases hb : isWs c = true
  · rw [hb]
    rw [isWs_iff] at hb ⊢
    rw [h, if_neg (by omega)]
    omega
  · rw [Bool.not_eq_true] at hb
    rw [hb]
    rw [Bool.eq_false_iff, ne_eq, isWs_iff] at hb ⊢
    rw [h]
    split <;> omega

theorem isDeco_lower (c : Char) : isDeco (asciiLowerChar c) = isDeco c := by
  have h := toNat_lower c
  by_cases hb : isDeco c = true
  · rw [hb]
    rw [isDeco_iff] at hb ⊢
    rw [h, if_neg (by omega)]
    omega
  · rw [Bool.not_eq_true] at hb
    rw [hb]
    rw [Bool.eq_false_iff, ne_eq, isDeco_iff] at hb ⊢
    rw [h]
    split <;> omega

theorem lower_lower (c : Char) : asciiLowerChar (asciiLowerChar c) = asciiLowerChar c := by
  have h := toNat_lower c
  rw [char_eq_iff, toNat_lower, toNat_lower]
  by_cases hc : 65 ≤ c.toNat ∧ c.toNat ≤ 90
  · rw [if_pos hc] at h ⊢
    rw [if_neg (by omega)]
  · rw [if_neg hc] at h ⊢
    rw [if_neg hc]

/-! ### List-level helper lemmas -/

theorem dropWhile_head_false (p : α → Bool) (l : List α) (x : α) (rest : List α)
    (h : l.dropWhile p = x :: rest) : p x = false := by
  induction l with
  | nil => simp at h
  | cons c cs ih =>
    rw [List.dropWhile_cons] at h
    split at h
    · exact ih h
    · next hc =>
      cases h
      exact Bool.not_eq_true _ ▸ Bool.of_not_eq_true hc

theorem dropWhile_eq_self_of_forall (p : α → Bool) (l : List α)
    (h : ∀ c ∈ l, p c = false) : l.dropWhile p = l := by
  cases l with
  | nil => rfl
  | cons c cs =>
    rw [List.dropWhile_cons, if_neg]
    simp [h c (List.mem_cons_self c cs)]

theorem dropWhile_idem (p : α → Bool) (l : List α) :
    (l.dropWhile p).dropWhile p = l.dropWhile p := by
  cases h : l.dropWhile p with
  | nil => rfl
  | cons x rest =>
    rw [List.dropWhile_cons, if_neg]
    simp [dropWhile_head_false p l x rest h]

theorem dropWhile_eq_self_of_prefix (p : α → Bool) (l d : List α)
    (hpre : l <+: d) (hd : d.dropWhile p = d) : l.dropWhile p = l := by
  cases l with
  | nil => rfl
  | cons x t =>
    obtain ⟨s, hs⟩ := hpre
    have hxd : ∃ t', d = x :: t' := ⟨t ++ s, by rw [← hs]; rfl⟩
    obtain ⟨t', ht'⟩ := hxd
    have hpx : p x = false := by
      by_contra hc
      rw [Bool.not_eq_false] at hc
      rw [ht', List.dropWhile_cons, if_pos hc] at hd
      have := congrArg List.length hd
      simp at this
      have hle := List.Sublist.length_le (List.dropWhile_sublist (l := t') (p := p))
      omega
    rw [List.dropWhile_cons, if_neg (by simp [hpx])]

/-! ### Association-list lemmas -/

theorem hmGet_append_of_none (m m2 : List (List Char × α)) (k : List Char)
    (h : hmGet m k = none) : hmGet (m ++ m2) k = hmGet m2 k := by
  induction m with
  | nil => rfl
  | cons p rest ih =>
    obtain ⟨k', c'⟩ := p
    by_cases hk : k' = k
    · simp only [hmGet, if_pos hk] at h
      exact Option.noConfusion h
    · simp only [hmGet, if_neg hk] at h
      rw [List.cons_append]
      simp only [hmGet, if_neg hk]
      exact ih h

theorem hmGet_append_of_some (m m2 : List (List Char × α)) (k : List Char) (c : α)
    (h : hmGet m k = some c) : hmGet (m ++ m2) k = some c := by
  induction m with
  | nil => exact Option.noConfusion h
  | cons p rest ih =>
    obtain ⟨k', c'⟩ := p
    by_cases hk : k' = k
    · simp only [hmGet, if_pos hk] at h
      rw [List.cons_append]
      simp only [hmGet, if_pos hk]
      exact h
    · simp only [hmGet, if_neg hk] at h
      rw [List.cons_append]
      simp only [hmGet, if_neg hk]
      exact ih h

theorem hmGet_modify_self (m : List (List Char × α)) (k : List Char) (f : α → α) :
    hmGet (hmModify m k f) k = (hmGet m k).map f := by
  induction m with
  | nil => rfl
  | cons p rest ih =>
    obtain ⟨k', c'⟩ := p
    by_cases hk : k' = k
    · simp only [hmModify, if_pos hk, hmGet, if_pos rfl]
      simp
    · simp only [hmModify, if_neg hk, hmGet, if_neg hk]
      exact ih

theorem hmGet_modify_other (m : List (List Char × α)) (k k' : List Char) (f : α → α)
    (h : k' ≠ k) : hmGet (hmModify m k f) k' = hmGet m k' := by
  induction m with
  | nil => rfl
  | cons p rest ih =>
    obtain ⟨k₀, c₀⟩ := p
    by_cases hk : k₀ = k
    · simp only [hmModify, if_pos hk, hmGet]
      rw [if_neg (fun hc => h hc.symm), if_neg (fun hc => h (hk ▸ hc).symm)]
      exact ih
    · simp only [hmModify, if_neg hk, hmGet]
      by_cases hk2 : k₀ = k'
      · rw [if_pos hk2, if_pos hk2]
      · rw [if_neg hk2, if_neg hk2]
        exact ih

/-! ### Trimming lemmas -/

theorem mem_trimL (c : Char) (l : List Char) (h : c ∈ trimL l) : c ∈ l := by
  unfold trimL at h
  have h1 : c ∈ (l.dropWhile isWs).reverse.dropWhile isWs := List.mem_reverse.mp h
  have h2 := (List.dropWhile_sublist (l := (l.dropWhile isWs).reverse) (p := isWs)).mem h1
  have h3 : c ∈ l.dropWhile isWs := List.mem_reverse.mp h2
  exact (List.dropWhile_sublist (l := l) (p := isWs)).mem h3

theorem mem_trimMatchesL (c : Char) (l : List Char) (h : c ∈ trimMatchesL l) : c ∈ l := by
  unfold trimMatchesL at h
  have h1 : c ∈ (l.dropWhile isDeco).reverse.dropWhile isDeco := List.mem_reverse.mp h
  have h2 := (List.dropWhile_sublist (l := (l.dropWhile isDeco).reverse) (p := isDeco)).mem h1
  have h3 : c ∈ l.dropWhile isDeco := List.mem_reverse.mp h2
  exact (List.dropWhile_sublist (l := l) (p := isDeco)).mem h3

theorem trimL_dropWhile_self (l : List Char) : (trimL l).dropWhile isWs = trimL l := by
  unfold trimL
  apply dropWhile_eq_self_of_prefix isWs _ (l.dropWhile isWs)
  · have hs : List.dropWhile isWs (List.dropWhile isWs l).reverse <:+
        (List.dropWhile isWs l).reverse := List.dropWhile_suffix isWs
    have hp := List.reverse_prefix.mpr hs
    rw [List.reverse_reverse] at hp
    exact hp
  · exact dropWhile_idem isWs l

theorem trimL_reverse_dropWhile_self (l : List Char) :
    (trimL l).reverse.dropWhile isWs = (trimL l).reverse := by
  unfold trimL
  rw [List.reverse_reverse]
  exact dropWhile_idem isWs (l.dropWhile isWs).reverse

theorem trimL_idem (l : List Char) : trimL (trimL l) = trimL l := by
  show (((trimL l).dropWhile isWs).reverse.dropWhile isWs).reverse = trimL l
  rw [trimL_dropWhile_self, trimL_reverse_dropWhile_self, List.reverse_reverse]

theorem trimMatchesL_eq_self (l : List Char) (h : ∀ c ∈ l, isDeco c = false) :
    trimMatchesL l = l := by
  unfold trimMatchesL
  rw [dropWhile_eq_self_of_forall isDeco l h,
    dropWhile_eq_self_of_forall isDeco l.reverse (fun c hc => h c (List.mem_reverse.mp hc)),
    List.reverse_reverse]

theorem lowerL_dropWhile_isWs (l : List Char) :
    (lowerL l).dropWhile isWs = lowerL (l.dropWhile isWs) := by
  unfold lowerL
  rw [List.dropWhile_map]
  have h : (isWs ∘ asciiLowerChar) = isWs := funext isWs_lower
  rw [h]

theorem trimL_lowerL (l : List Char) : trimL (lowerL l) = lowerL (trimL l) := by
  unfold trimL
  rw [lowerL_dropWhile_isWs]
  have hrev : ∀ m : List Char, (lowerL m).reverse = lowerL m.reverse := by
    intro m; unfold lowerL; rw [List.map_reverse]
  rw [hrev, lowerL_dropWhile_isWs, hrev]

theorem lowerL_lowerL (l : List Char) : lowerL (lowerL l) = lowerL l := by
  unfold lowerL
  rw [List.map_map]
  apply List.map_congr_left
  intro c _
  exact lower_lower c

/-! ### Normalization lemmas -/

theorem normalizeNickL_eq_of_noDeco (l : List Char) (h : ∀ c ∈ l, isDeco c = false) :
    normalizeNickL l = lowerL (trimL l) := by
  unfold normalizeNickL
  rw [trimMatchesL_eq_self (trimL l) (fun c hc => h c (mem_trimL c l hc))]

theorem normalizeNickL_idem_of_noDeco (l : List Char) (h : ∀ c ∈ l, isDeco c = false) :
    normalizeNickL (normalizeNickL l) = normalizeNickL l := by
  have h1 := normalizeNickL_eq_of_noDeco l h
  have hlt : ∀ c ∈ lowerL (trimL l), isDeco c = false := by
    intro c hc
    obtain ⟨d, hd, hcd⟩ := List.mem_map.mp hc
    rw [← hcd, isDeco_lower]
    exact h d (mem_trimL d l hd)
  rw [h1]
  rw [normalizeNickL_eq_of_noDeco _ hlt, trimL_lowerL, trimL_idem, lowerL_lowerL]

/-- For claim C4: a normalized nick as produced by the parser contains no
whitespace when the input field contains none. -/
theorem normalizeNickL_noWs (l : List Char) (h : ∀ c ∈ l, isWs c = false) :
    ∀ c ∈ normalizeNickL l, isWs c = false := by
  intro c hc
  unfold normalizeNickL at hc
  obtain ⟨d, hd, hcd⟩ := List.mem_map.mp hc
  rw [← hcd, isWs_lower]
  exact h d (mem_trimL d l (mem_trimMatchesL d (trimL l) hd))

theorem trimL_eq_self_of_noWs (l : List Char) (h : ∀ c ∈ l, isWs c = false) :
    trimL l = l := by
  unfold trimL
  rw [dropWhile_eq_self_of_forall isWs l h,
    dropWhile_eq_self_of_forall isWs l.reverse (fun c hc => h c (List.mem_reverse.mp hc)),
    List.reverse_reverse]

/-! ### Claim C1 — the end-to-end parse scenario -/

/-- C1, counterexample: the claim says the line
`"2024-01-01 10:00:00 <Alice> hello there friend"` parses to an Entry with
identity `alice`.  In fact `normalize_nick` strips only `@` and `>` (never
`<`), so the identity is `<alice`: the claimed identity is wrong. -/
theorem c1_counterexample :
    parseLines ["2024-01-01 10:00:00 <Alice> hello there friend".data,
      "2024-01-01 10:00:01 --> bob has joined".data] =
      [ParseRes.Yield ⟨"2024-01-01".data, "10:00:00".data, "<alice".data,
        "hello there friend".data⟩, ParseRes.Skip, ParseRes.Done] ∧
    "<alice".data ≠ "alice".data := by
  constructor
  · decide
  · decide

/-- C1, amended: parsing the two log lines yields exactly one `Yield` entry —
for the first line, with identity `<alice` (the leading `<` survives
normalization, which strips only `@`/`>`) and message
`hello there friend` — and the join line yields `Skip`. -/
theorem c1_end_to_end :
    parseLines ["2024-01-01 10:00:00 <Alice> hello there friend".data,
      "2024-01-01 10:00:01 --> bob has joined".data] =
      [ParseRes.Yield ⟨"2024-01-01".data, "10:00:00".data, "<alice".data,
        "hello there friend".data⟩, ParseRes.Skip, ParseRes.Done] := by
  decide

/-! ### Claim C4 — idempotence of normalization -/

/-- C4, counterexample: normalization is not idempotent on all strings.
`normalize_nick` trims whitespace **before** stripping `@`/`>`, so
`normalize_nick "@ a" = " a"` keeps a leading space, and a second application
removes it. -/
theorem c4_counterexample :
    normalize_nick (normalize_nick "@ a") ≠ normalize_nick "@ a" := by
  decide

/-- C4, amended: normalization is idempotent on every string containing no
`@` and no `>` character (on such strings stripping is the identity, and
trim-then-lowercase is idempotent).  The original claim fails only because a
stripped `@`/`>` can expose fresh surrounding whitespace. -/
theorem c4_normalize_idem (s : String) (h : ∀ c ∈ s.data, c ≠ '@' ∧ c ≠ '>') :
    normalize_nick (normalize_nick s) = normalize_nick s := by
  have hd : ∀ c ∈ s.data, isDeco c = false := by
    intro c hc
    have := h c hc
    simp [isDeco, this.1, this.2]
  show String.mk (normalizeNickL (normalizeNickL s.data)) = String.mk (normalizeNickL s.data)
  rw [normalizeNickL_idem_of_noDeco s.data hd]

/-- C4 witness: the amended idempotence law applied at `"  Bob  "`. -/
theorem c4_witness :
    normalize_nick (normalize_nick "  Bob  ") = normalize_nick "  Bob  " :=
  c4_normalize_idem "  Bob  " (by decide)

/-! ### Claim C2 — the reply selection policy -/

/-- `skip_while`-followed-by-`next` finds the first element failing the
predicate, if any, with everything before it satisfying the predicate. -/
theorem dropWhile_head_decomp (p : α → Bool) (l : List α) :
    ((l.dropWhile p).head? = none ∧ ∀ x ∈ l, p x = true) ∨
    (∃ pre s suf, l = pre ++ s :: suf ∧ (∀ t ∈ pre, p t = true) ∧ p s = false ∧
      (l.dropWhile p).head? = some s) := by
  induction l with
  | nil => left; simp
  | cons x xs ih =>
    by_cases h : p x = true
    · rw [List.dropWhile_cons, if_pos h]
      rcases ih with ⟨h1, h2⟩ | ⟨pre, s, suf, he, hp, hs, hh⟩
      · left
        refine ⟨h1, ?_⟩
        intro y hy
        rcases List.mem_cons.mp hy with hy | hy
        · rw [hy]; exact h
        · exact h2 y hy
      · right
        refine ⟨x :: pre, s, suf, by rw [he]; rfl, ?_, hs, hh⟩
        intro t ht
        rcases List.mem_cons.mp ht with ht | ht
        · rw [ht]; exact h
        · exact hp t ht
    · right
      rw [Bool.not_eq_true] at h
      refine ⟨[], x, xs, rfl, by simp, h, ?_⟩
      rw [List.dropWhile_cons, if_neg (by simp [h])]
      rfl

/-- C2, counterexample: the claimed acceptance window — length in characters,
half-open `[20, 100)` — is wrong on both counts.  The code accepts a UTF-8
byte length in the **closed** window `[20, 100]`: a 100-character candidate
(outside `[20,100)`) is returned rather than the fallback, and a 15-character
candidate of two-byte characters (15 < 20 characters) is also returned, since
its byte length is 30. -/
theorem c2_counterexample :
    (selectReply [String.mk (List.replicate 100 'a')] =
        String.mk (List.replicate 100 'a') ∧
      (String.mk (List.replicate 100 'a')).length = 100 ∧
      String.mk (List.replicate 100 'a') ≠ fallbackReply) ∧
    (selectReply ["ééééééééééééééé"] = "ééééééééééééééé" ∧
      ("ééééééééééééééé" : String).length = 15 ∧
      ("ééééééééééééééé" : String) ≠ fallbackReply) := by
  refine ⟨⟨?_, ?_, ?_⟩, ⟨?_, ?_, ?_⟩⟩ <;> decide

/-- C2, amended: the reply selection examines at most the first 500 generated
candidates in order and returns the first one whose **UTF-8 byte length** lies
in the **closed** window `[20, 100]`; when every examined candidate (also when
the generator terminates before yielding 500) falls outside the window, it
returns the fixed fallback string `"oh noes :("`. -/
theorem c2_reply_selection (cs : List String) :
    (selectReply cs = "oh noes :(" ∧
      ∀ s ∈ cs.take 500, s.utf8ByteSize < 20 ∨ 100 < s.utf8ByteSize) ∨
    (∃ pre s suf, cs.take 500 = pre ++ s :: suf ∧
      (∀ t ∈ pre, t.utf8ByteSize < 20 ∨ 100 < t.utf8ByteSize) ∧
      (20 ≤ s.utf8ByteSize ∧ s.utf8ByteSize ≤ 100) ∧ selectReply cs = s) := by
  have hiff : ∀ s : String,
      lenOutside s = true ↔ (s.utf8ByteSize < 20 ∨ 100 < s.utf8ByteSize) := by
    intro s
    simp [lenOutside]
  rcases dropWhile_head_decomp lenOutside (cs.take 500) with ⟨h1, h2⟩ | ⟨pre, s, suf, he, hp, hs, hh⟩
  · left
    constructor
    · unfold selectReply
      rw [h1]
      rfl
    · intro s hsm
      exact (hiff s).mp (h2 s hsm)
  · right
    refine ⟨pre, s, suf, he, fun t ht => (hiff t).mp (hp t ht), ?_, ?_⟩
    · have := (hiff s).not.mp (by simp [hs])
      omega
    · unfold selectReply
      rw [hh]
      rfl

/-! ### Claim C3 — field splitting and the four-field rule -/

theorem splitFirst_snd_none_iff (l : List Char) :
    (splitFirst l).2 = none ↔ l.countP isWs = 0 := by
  unfold splitFirst
  rw [List.countP_eq_zero]
  cases h : l.dropWhile (fun c => !isWs c) with
  | nil =>
    simp only [h]
    rw [List.dropWhile_eq_nil_iff] at h
    constructor
    · intro _ a ha
      have := h a ha
      simp at this
      simp [this]
    · intro _
      trivial
  | cons x rest =>
    simp only [h]
    constructor
    · intro hc; exact Option.noConfusion hc
    · intro hall
      exfalso
      have hx : x ∈ l := by
        have hsub := List.dropWhile_sublist (l := l) (p := fun c => !isWs c)
        rw [h] at hsub
        exact hsub.mem (List.mem_cons_self x rest)
      have h1 := hall x hx
      have h2 := dropWhile_head_false (fun c => !isWs c) l x rest h
      simp at h1 h2
      rw [h1] at h2
      exact Bool.noConfusion h2

theorem splitFirst_snd_some_count (l r : List Char)
    (h : (splitFirst l).2 = some r) : l.countP isWs = r.countP isWs + 1 := by
  unfold splitFirst at h
  cases hd : l.dropWhile (fun c => !isWs c) with
  | nil => rw [hd] at h; exact Option.noConfusion h
  | cons x rest =>
    rw [hd] at h
    simp only [Option.some.injEq] at h
    subst h
    have hsplit := List.takeWhile_append_dropWhile (p := fun c => !isWs c) (l := l)
    have hcount := congrArg (List.countP isWs) hsplit
    rw [List.countP_append, hd] at hcount
    have htake : (l.takeWhile (fun c => !isWs c)).countP isWs = 0 := by
      rw [List.countP_eq_zero]
      intro a ha
      have := List.mem_takeWhile_imp ha
      simp at this
      simp [this]
    have hx : isWs x = true := by
      have := dropWhile_head_false (fun c => !isWs c) l x rest hd
      simpa using this
    rw [htake] at hcount
    rw [List.countP_cons] at hcount
    simp only [hx, if_true] at hcount
    omega

/-- C3, counterexample: the claim's splitting on *runs* of whitespace is
wrong, and with it the four-field rule.  The line `"a  b c"` has only three
fields under run-splitting — so the claim predicts `Skip` — but the source's
`splitn(4, char-predicate)` splits at every single whitespace character, so
the line parses into the four fields `"a"`, `""`, `"b"`, `"c"` and yields an
Entry. -/
theorem c3_counterexample :
    (wsRunFieldsSpec "a  b c".data).length = 3 ∧
    nextEntry "a  b c".data =
      ParseRes.Yield ⟨"a".data, [], "b".data, "c".data⟩ ∧
    nextEntry "a  b c".data ≠ ParseRes.Skip := by
  refine ⟨?_, ?_, ?_⟩ <;> decide

/-- C3, amended: the parser splits each (trimmed) line at its first three
single ASCII whitespace characters — adjacent separators produce empty
fields — into at most four fields, and every line with fewer than four such
fields, i.e. whose trimmed form contains fewer than three ASCII whitespace
characters, yields `Skip`. -/
theorem c3_few_fields_skip (l : List Char)
    (h : (trimL l).countP isWs < 3) : nextEntry l = ParseRes.Skip := by
  unfold nextEntry
  suffices hfl : fromLine (trimL l) = none by rw [hfl]
  unfold fromLine
  split
  · rfl
  · next rest1 heq1 =>
    split
    · rfl
    · next rest2 heq2 =>
      split
      · rfl
      · next msg heq3 =>
        have hc1 := splitFirst_snd_some_count _ _ heq1
        have hc2 := splitFirst_snd_some_count _ _ heq2
        have hc3 := splitFirst_snd_some_count _ _ heq3
        exfalso
        omega

/-- C3 witness: the amended rule applied to the two-field line `"a b"`. -/
theorem c3_witness : nextEntry "a b".data = ParseRes.Skip :=
  c3_few_fields_skip "a b".data (by decide)

/-! ### Claim C5 — the model file path -/

theorem splitLastDot_eq_none_of_no_dot (l : List Char) (h : ('.' : Char) ∉ l) :
    splitLastDot l = none := by
  induction l with
  | nil => rfl
  | cons c rest ih =>
    unfold splitLastDot
    rw [ih (fun hc => h (List.mem_cons_of_mem c hc))]
    rw [if_neg (fun hc => h (List.mem_cons.mpr (Or.inl hc.symm)))]

/-- C5, counterexample: `path_for_nick` does not append the literal suffix
`.bin` to every identity.  `set_extension` **replaces** an existing extension,
so identity `a.b` maps to `./data/a.bin`, not `./data/a.b.bin`. -/
theorem c5_counterexample :
    path_for_nick "./data" "a.b" = "./data/a.bin" ∧
    "./data/a.bin" ≠ "./data" ++ "/" ++ "a.b" ++ ".bin" := by
  constructor
  · decide
  · decide

/-- C5, amended: for every directory and every identity that is non-empty, a
single path component (no `/`) and contains no `.`, the model path is the
directory, a separator, the identity, and the literal suffix `.bin`.  (An
identity containing a dot instead has the part after its last dot **replaced**
by `bin` — Rust `set_extension` semantics.) -/
theorem c5_path_for_nick (dir nick : String) (h0 : nick ≠ "")
    (h1 : ('.' : Char) ∉ nick.data) (h2 : ('/' : Char) ∉ nick.data) :
    path_for_nick dir nick = dir ++ "/" ++ nick ++ ".bin" := by
  unfold path_for_nick setExtensionBinL
  rw [splitLastDot_eq_none_of_no_dot nick.data h1]
  show dir ++ "/" ++ String.mk (nick.data ++ ".bin".data) = dir ++ "/" ++ nick ++ ".bin"
  have hmk : String.mk (nick.data ++ ".bin".data) = nick ++ ".bin" := rfl
  rw [hmk]
  exact (String.append_assoc _ _ _).symm

/-- C5 witness: the amended path contract at directory `./data` and identity
`alice`. -/
theorem c5_witness : path_for_nick "./data" "alice" = "./data" ++ "/" ++ "alice" ++ ".bin" :=
  c5_path_for_nick "./data" "alice" (by decide) (by decide) (by decide)

/-! ### Claim C6 — the TTL sweep -/

/-- C6: the sweep retains exactly the entries with `now - last_used ≤ ttl`:
an entry survives the sweep, unchanged (same nick and same `CachedChain`
value), if and only if it was in the cache before and its idle time does not
exceed the TTL; equivalently every entry idle strictly longer than the TTL is
removed.  (`Instant` subtraction saturates at zero, as does `Nat`
subtraction, so entries touched "in the future" also survive.) -/
theorem c6_sweep_exact (st : Chains) (now : Nat) (k : List Char) (c : CachedChain) :
    (k, c) ∈ (cleanup now st).cached ↔
      ((k, c) ∈ st.cached ∧ now - c.last_used ≤ st.ttl) := by
  simp [cleanup, List.mem_filter]

/-! ### Claim C7 — cache lookup -/

/-- C7: `find_nick` behaves as specified in all three cases.
On a **hit** it returns the cached chain and refreshes that entry's
`last_used` to now, leaving every other binding unchanged.  On a **miss**
with a successful disk load it returns the loaded chain and inserts it with
`last_used = now`, leaving every other binding unchanged.  On a **miss** with
a failed load it returns `none` — absence, not an error — and the whole cache
state is completely unchanged. -/
theorem c7_find_nick (disk : String → Option (List (List Char))) (now : Nat)
    (st : Chains) (nick : List Char) :
    (∀ c, hmGet st.cached nick = some c →
      (find_nick disk now st nick).1 = some c.chain ∧
      hmGet (find_nick disk now st nick).2.cached nick =
        some ⟨now, c.chain⟩ ∧
      ∀ k, k ≠ nick →
        hmGet (find_nick disk now st nick).2.cached k = hmGet st.cached k) ∧
    (hmGet st.cached nick = none →
      ∀ payload, disk (path_for_nick st.data_dir ⟨nick⟩) = some payload →
        (find_nick disk now st nick).1 = some ⟨nick, payload⟩ ∧
        hmGet (find_nick disk now st nick).2.cached nick =
          some ⟨now, ⟨nick, payload⟩⟩ ∧
        ∀ k, k ≠ nick →
          hmGet (find_nick disk now st nick).2.cached k = hmGet st.cached k) ∧
    (hmGet st.cached nick = none →
      disk (path_for_nick st.data_dir ⟨nick⟩) = none →
      find_nick disk now st nick = (none, st)) := by
  refine ⟨?_, ?_, ?_⟩
  · intro c hc
    unfold find_nick
    rw [hc]
    refine ⟨rfl, ?_, ?_⟩
    · show hmGet (touchCached st.cached nick now) nick = some ⟨now, c.chain⟩
      unfold touchCached
      rw [hmGet_modify_self, hc]
      rfl
    · intro k hk
      show hmGet (touchCached st.cached nick now) k = hmGet st.cached k
      unfold touchCached
      exact hmGet_modify_other st.cached nick k _ hk
  · intro hmiss payload hload
    unfold find_nick
    rw [hmiss]
    unfold CachedChain.from_path
    rw [hload]
    refine ⟨rfl, ?_, ?_⟩
    · show hmGet (st.cached ++ [(nick, ⟨now, ⟨nick, payload⟩⟩)]) nick = _
      rw [hmGet_append_of_none st.cached _ nick hmiss]
      simp [hmGet]
    · intro k hk
      show hmGet (st.cached ++ [(nick, ⟨now, ⟨nick, payload⟩⟩)]) k = hmGet st.cached k
      cases hgk : hmGet st.cached k with
      | some c => exact hmGet_append_of_some st.cached _ k c hgk
      | none =>
        rw [hmGet_append_of_none st.cached _ k hgk]
        simp only [hmGet]
        rw [if_neg (fun h => hk h.symm)]
  · intro hmiss hload
    unfold find_nick
    rw [hmiss]
    unfold CachedChain.from_path
    rw [hload]
    rfl

/-- C7 witness: the three cases of `c7_find_nick` at concrete states — a hit
for `bob` in a one-entry cache, a successful load of `eve` into the empty
cache, and a failed load of `eve` from an empty disk. -/
theorem c7_witness :
    ((find_nick (fun _ => none) 9 ⟨"./data", 20, [("bob".data, ⟨2, ⟨"bob".data, ["hi".data]⟩⟩)]⟩ "bob".data).1 =
      some ⟨"bob".data, ["hi".data]⟩ ∧
     (find_nick (fun _ => some [[]]) 9 ⟨"./data", 20, []⟩ "eve".data).1 =
      some ⟨"eve".data, [[]]⟩ ∧
     find_nick (fun _ => none) 9 ⟨"./data", 20, []⟩ "eve".data =
      (none, ⟨"./data", 20, []⟩)) := by
  refine ⟨?_, ?_, ?_⟩
  · exact ((c7_find_nick (fun _ => none) 9
      ⟨"./data", 20, [("bob".data, ⟨2, ⟨"bob".data, ["hi".data]⟩⟩)]⟩
      "bob".data).1 ⟨2, ⟨"bob".data, ["hi".data]⟩⟩ (by decide)).1
  · exact ((c7_find_nick (fun _ => some [[]]) 9 ⟨"./data", 20, []⟩
      "eve".data).2.1 (by decide) [[]] rfl).1
  · exact (c7_find_nick (fun _ => none) 9 ⟨"./data", 20, []⟩
      "eve".data).2.2 (by decide) rfl

/-! ### Claim C9 — no cross-identity feeding -/

theorem msgsFor_yield_eq (k : List Char) (e : Entry) (rest : List ParseRes)
    (he : e.nick = k) :
    msgsFor k (ParseRes.Yield e :: rest) = e.msg :: msgsFor k rest := by
  simp [msgsFor, entriesOf, he]

theorem msgsFor_yield_ne (k : List Char) (e : Entry) (rest : List ParseRes)
    (he : ¬e.nick = k) :
    msgsFor k (ParseRes.Yield e :: rest) = msgsFor k rest := by
  simp [msgsFor, entriesOf, he]

theorem feedEntry_self_present (m : List (List Char × Chain)) (e : Entry) (c : Chain)
    (h : hmGet m e.nick = some c) :
    hmGet (feedEntry m e) e.nick = some ⟨c.nick, c.fed ++ [e.msg]⟩ := by
  unfold feedEntry insertIfAbsent
  rw [h]
  rw [if_neg (by simp)]
  rw [h]
  rw [hmGet_modify_self, h]
  rfl

theorem feedEntry_self_absent (m : List (List Char × Chain)) (e : Entry)
    (h : hmGet m e.nick = none) :
    hmGet (feedEntry m e) e.nick = some ⟨e.nick, [e.msg]⟩ := by
  unfold feedEntry insertIfAbsent
  rw [h, if_pos rfl]
  have hg : hmGet (m ++ [(e.nick, Chain.new e.nick)]) e.nick = some (Chain.new e.nick) := by
    rw [hmGet_append_of_none m _ _ h]
    simp [hmGet]
  rw [hg, hmGet_modify_self, hg]
  rfl

theorem feedEntry_other (m : List (List Char × Chain)) (e : Entry) (k : List Char)
    (hk : k ≠ e.nick) : hmGet (feedEntry m e) k = hmGet m k := by
  unfold feedEntry insertIfAbsent
  cases h : hmGet m e.nick with
  | some c =>
    rw [if_neg (by simp)]
    rw [h]
    exact hmGet_modify_other m e.nick k _ hk
  | none =>
    rw [if_pos rfl]
    have hg : hmGet (m ++ [(e.nick, Chain.new e.nick)]) e.nick = some (Chain.new e.nick) := by
      rw [hmGet_append_of_none m _ _ h]
      simp [hmGet]
    rw [hg, hmGet_modify_other _ e.nick k _ hk]
    cases hgk : hmGet m k with
    | some d => exact hmGet_append_of_some m _ k d hgk
    | none =>
      rw [hmGet_append_of_none m _ k hgk]
      simp only [hmGet]
      rw [if_neg (fun hc => hk hc.symm)]

theorem buildChains_lookup_some (rs : List ParseRes) (m : List (List Char × Chain))
    (k : List Char) (c : Chain) (h : hmGet m k = some c) :
    hmGet (buildChains m rs) k = some ⟨c.nick, c.fed ++ msgsFor k rs⟩ := by
  induction rs generalizing m c with
  | nil => simpa [buildChains, msgsFor, entriesOf]
  | cons r rest ih =>
    cases r with
    | Done => simpa [buildChains, msgsFor, entriesOf]
    | Skip =>
      rw [show buildChains m (ParseRes.Skip :: rest) = buildChains m rest from rfl]
      rw [show msgsFor k (ParseRes.Skip :: rest) = msgsFor k rest from rfl]
      exact ih m c h
    | Yield e =>
      rw [show buildChains m (ParseRes.Yield e :: rest) =
        buildChains (feedEntry m e) rest from rfl]
      by_cases he : e.nick = k
      · have hself := feedEntry_self_present m e c (by rw [he]; exact h)
        rw [he] at hself
        have := ih (feedEntry m e) ⟨c.nick, c.fed ++ [e.msg]⟩ hself
        rw [this, msgsFor_yield_eq k e rest he]
        simp
      · rw [msgsFor_yield_ne k e rest he]
        exact ih (feedEntry m e) c ((feedEntry_other m e k (fun hc => he hc.symm)).symm ▸ h)

theorem buildChains_lookup_none (rs : List ParseRes) (m : List (List Char × Chain))
    (k : List Char) (h : hmGet m k = none) :
    hmGet (buildChains m rs) k =
      if (entriesOf rs).any (fun e => e.nick = k) then some ⟨k, msgsFor k rs⟩
      else none := by
  induction rs generalizing m with
  | nil => simpa [buildChains, entriesOf]
  | cons r rest ih =>
    cases r with
    | Done => simpa [buildChains, entriesOf]
    | Skip =>
      rw [show buildChains m (ParseRes.Skip :: rest) = buildChains m rest from rfl]
      rw [show entriesOf (ParseRes.Skip :: rest) = entriesOf rest from rfl]
      rw [show msgsFor k (ParseRes.Skip :: rest) = msgsFor k rest from rfl]
      exact ih m h
    | Yield e =>
      rw [show buildChains m (ParseRes.Yield e :: rest) =
        buildChains (feedEntry m e) rest from rfl]
      rw [show entriesOf (ParseRes.Yield e :: rest) = e :: entriesOf rest from rfl]
      by_cases he : e.nick = k
      · have hself := feedEntry_self_absent m e (by rw [he]; exact h)
        rw [he] at hself
        have := buildChains_lookup_some rest (feedEntry m e) k ⟨k, [e.msg]⟩ hself
        rw [this, msgsFor_yield_eq k e rest he]
        simp [he]
      · have hother : hmGet (feedEntry m e) k = none := by
          rw [feedEntry_other m e k (fun hc => he hc.symm)]
          exact h
        rw [ih (feedEntry m e) hother, msgsFor_yield_ne k e rest he]
        simp [he]

/-- C9: during model building, every chain in the result observes exactly the
messages of the consumed entries attributed to its own identity, in order:
if the built map holds chain `ch` at key `k` then `ch` is keyed and named by
`k` and `ch.fed` is precisely the message list of the entries whose identity
is `k` — so no chain ever observes a message attributed to a different
identity. -/
theorem c9_feed_partition (rs : List ParseRes) (k : List Char) (ch : Chain)
    (h : hmGet (buildChains [] rs) k = some ch) :
    ch.nick = k ∧ ch.fed = msgsFor k rs := by
  have hb := buildChains_lookup_none rs [] k rfl
  rw [h] at hb
  by_cases ha : (entriesOf rs).any (fun e => e.nick = k) = true
  · rw [if_pos ha] at hb
    have : ch = ⟨k, msgsFor k rs⟩ := Option.some.inj hb
    rw [this]
    exact ⟨rfl, rfl⟩
  · rw [if_neg ha] at hb
    exact Option.noConfusion hb

/-- C9 witness: the feed-partition law on a four-result parser stream with
two identities. -/
theorem c9_witness :
    (⟨"bob".data, ["hi there".data]⟩ : Chain).nick = "bob".data ∧
    (⟨"bob".data, ["hi there".data]⟩ : Chain).fed =
      msgsFor "bob".data
        [ParseRes.Yield ⟨"d".data, "t".data, "bob".data, "hi there".data⟩,
         ParseRes.Skip,
         ParseRes.Yield ⟨"d".data, "t".data, "al".data, "yo".data⟩,
         ParseRes.Done] :=
  c9_feed_partition
    [ParseRes.Yield ⟨"d".data, "t".data, "bob".data, "hi there".data⟩,
     ParseRes.Skip,
     ParseRes.Yield ⟨"d".data, "t".data, "al".data, "yo".data⟩,
     ParseRes.Done] "bob".data ⟨"bob".data, ["hi there".data]⟩ (by decide)

/-! ### Claim C8 — what `generate` persists -/

/-- A parsed entry's nick contains no whitespace: it is the normalization of a
field produced by whitespace splitting. -/
theorem fromLine_nick_noWs (l : List Char) (e : Entry) (h : fromLine l = some e) :
    ∀ c ∈ e.nick, isWs c = false := by
  unfold fromLine at h
  split at h
  · exact Option.noConfusion h
  · split at h
    · exact Option.noConfusion h
    · next rest2 _ =>
      split at h
      · exact Option.noConfusion h
      · split at h
        · exact Option.noConfusion h
        · have he := Option.some.inj h
          rw [← he]
          apply normalizeNickL_noWs
          intro c hc
          have := List.mem_takeWhile_imp hc
          simpa using this

theorem mem_hmModify (m : List (List Char × α)) (k : List Char) (f : α → α) :
    ∀ p ∈ hmModify m k f, p.1 = k ∨ p ∈ m := by
  induction m with
  | nil => intro p hp; exact absurd hp (List.not_mem_nil p)
  | cons q rest ih =>
    obtain ⟨k', c'⟩ := q
    intro p hp
    by_cases hk : k' = k
    · rw [hmModify, if_pos hk] at hp
      rcases List.mem_cons.mp hp with hp | hp
      · left; rw [hp]
      · rcases ih p hp with h1 | h1
        · left; exact h1
        · right; exact List.mem_cons_of_mem _ h1
    · rw [hmModify, if_neg hk] at hp
      rcases List.mem_cons.mp hp with hp | hp
      · right; rw [hp]; exact List.mem_cons_self _ _
      · rcases ih p hp with h1 | h1
        · left; exact h1
        · right; exact List.mem_cons_of_mem _ h1

theorem mem_feedEntry (m : List (List Char × Chain)) (e : Entry) :
    ∀ p ∈ feedEntry m e, p ∈ m ∨ p.1 = e.nick := by
  have hins : ∀ p ∈ insertIfAbsent m e.nick, p ∈ m ∨ p.1 = e.nick := by
    intro p hp
    unfold insertIfAbsent at hp
    split at hp
    · rcases List.mem_append.mp hp with hp | hp
      · left; exact hp
      · right
        rcases List.mem_cons.mp hp with hp | hp
        · rw [hp]
        · exact absurd hp (List.not_mem_nil p)
    · left; exact hp
  intro p hp
  unfold feedEntry at hp
  split at hp
  · rcases mem_hmModify _ e.nick _ p hp with h1 | h1
    · right; exact h1
    · exact hins p h1
  · exact hins p hp

theorem buildChains_keys_noWs (rs : List ParseRes) (m : List (List Char × Chain))
    (hm : ∀ p ∈ m, ∀ c ∈ p.1, isWs c = false)
    (hr : ∀ e, ParseRes.Yield e ∈ rs → ∀ c ∈ e.nick, isWs c = false) :
    ∀ p ∈ buildChains m rs, ∀ c ∈ p.1, isWs c = false := by
  induction rs generalizing m with
  | nil => exact hm
  | cons r rest ih =>
    cases r with
    | Done => exact hm
    | Skip =>
      exact ih m hm (fun e he => hr e (List.mem_cons_of_mem _ he))
    | Yield e =>
      apply ih (feedEntry m e)
      · intro p hp
        rcases mem_feedEntry m e p hp with h1 | h1
        · exact hm p h1
        · rw [h1]
          exact hr e (List.mem_cons_self _ _)
      · intro e' he'
        exact hr e' (List.mem_cons_of_mem _ he')

theorem readFile_keys_noWs (lines : List (List Char)) :
    ∀ p ∈ readFile lines, ∀ c ∈ p.1, isWs c = false := by
  apply buildChains_keys_noWs
  · intro p hp; exact absurd hp (List.not_mem_nil p)
  · intro e he
    unfold parseLines at he
    rcases List.mem_append.mp he with he | he
    · obtain ⟨line, _, hline⟩ := List.mem_map.mp he
      unfold nextEntry at hline
      split at hline
      · next e' heq =>
        have : e' = e := by
          have := ParseRes.Yield.inj hline
          exact this
        rw [← this] at *
        exact fromLine_nick_noWs _ e' heq
      · exact ParseRes.noConfusion hline
    · rcases List.mem_cons.mp he with he | he
      · exact ParseRes.noConfusion he
      · exact absurd he (List.not_mem_nil _)

theorem saveChains_ok (writeOk : String → Bool) (dd : String)
    (cs : List (List Char × Chain))
    (htrim : ∀ p ∈ cs, trimL p.1 = p.1)
    (hw : ∀ p ∈ cs, p.1 ≠ [] → writeOk (path_for_nick dd ⟨p.1⟩) = true) :
    saveChains writeOk dd cs = Except.ok ((cs.map Prod.fst).filter (fun k => k ≠ [])) := by
  induction cs with
  | nil => rfl
  | cons q rest ih =>
    obtain ⟨nick, c⟩ := q
    have htl := htrim (nick, c) (List.mem_cons_self _ _)
    have ihr := ih (fun p hp => htrim p (List.mem_cons_of_mem _ hp))
      (fun p hp => hw p (List.mem_cons_of_mem _ hp))
    by_cases hn : nick = []
    · rw [saveChains, if_pos (by rw [htl]; exact hn)]
      rw [ihr]
      simp [hn]
    · rw [saveChains, if_neg (by rw [htl]; exact hn)]
      rw [if_pos (hw (nick, c) (List.mem_cons_self _ _) hn)]
      rw [ihr]
      simp only [List.map_cons, List.filter_cons]
      rw [if_pos (by simp [hn])]
      rfl

theorem saveChains_error (writeOk : String → Bool) (dd : String)
    (cs : List (List Char × Chain))
    (htrim : ∀ p ∈ cs, trimL p.1 = p.1)
    (hw : ∃ p ∈ cs, p.1 ≠ [] ∧ writeOk (path_for_nick dd ⟨p.1⟩) = false) :
    saveChains writeOk dd cs = Except.error () := by
  induction cs with
  | nil =>
    obtain ⟨p, hp, _⟩ := hw
    exact absurd hp (List.not_mem_nil p)
  | cons q rest ih =>
    obtain ⟨nick, c⟩ := q
    have htl := htrim (nick, c) (List.mem_cons_self _ _)
    obtain ⟨p, hp, hpe, hpw⟩ := hw
    by_cases hn : nick = []
    · rw [saveChains, if_pos (by rw [htl]; exact hn)]
      apply ih (fun p' hp' => htrim p' (List.mem_cons_of_mem _ hp'))
      refine ⟨p, ?_, hpe, hpw⟩
      rcases List.mem_cons.mp hp with hp1 | hp1
      · exfalso; apply hpe; rw [hp1]; exact hn
      · exact hp1
    · rw [saveChains, if_neg (by rw [htl]; exact hn)]
      by_cases hwn : writeOk (path_for_nick dd ⟨nick⟩) = true
      · rw [if_pos hwn]
        have hrec : saveChains writeOk dd rest = Except.error () := by
          apply ih (fun p' hp' => htrim p' (List.mem_cons_of_mem _ hp'))
          refine ⟨p, ?_, hpe, hpw⟩
          rcases List.mem_cons.mp hp with hp1 | hp1
          · exfalso
            rw [hp1] at hpw
            rw [hwn] at hpw
            exact Bool.noConfusion hpw
          · exact hp1
        rw [hrec]
        rfl
      · rw [if_neg hwn]

/-- C8: `generate` on a log file persists exactly one model per built identity
with a non-empty (normalized) name.  If directory creation fails, the whole
operation is an error; if it succeeds and every required write succeeds, the
persisted identities are precisely the built identities other than the empty
string (which is retained in the build map but excluded from persistence);
and if any required write fails, the whole batch aborts with an error. -/
theorem c8_generate (lines : List (List Char)) (dirOk : Bool) (writeOk : String → Bool) :
    (dirOk = false → generate dirOk writeOk DATA_DIR lines = Except.error ()) ∧
    (dirOk = true →
      ((∀ k ∈ (readFile lines).map Prod.fst, k ≠ [] →
          writeOk (path_for_nick DATA_DIR ⟨k⟩) = true) →
        generate dirOk writeOk DATA_DIR lines =
          Except.ok (((readFile lines).map Prod.fst).filter (fun k => k ≠ []))) ∧
      ((∃ k ∈ (readFile lines).map Prod.fst, k ≠ [] ∧
          writeOk (path_for_nick DATA_DIR ⟨k⟩) = false) →
        generate dirOk writeOk DATA_DIR lines = Except.error ())) := by
  have htrim : ∀ p ∈ readFile lines, trimL p.1 = p.1 :=
    fun p hp => trimL_eq_self_of_noWs p.1 (readFile_keys_noWs lines p hp)
  refine ⟨?_, fun hdir => ⟨?_, ?_⟩⟩
  · intro hdir
    unfold generate
    rw [hdir]
    rfl
  · intro hw
    unfold generate
    rw [hdir, if_pos rfl]
    exact saveChains_ok writeOk DATA_DIR (readFile lines) htrim
      (fun p hp hpn => hw p.1 (List.mem_map.mpr ⟨p, hp, rfl⟩) hpn)
  · intro hw
    unfold generate
    rw [hdir, if_pos rfl]
    obtain ⟨k, hk, hkn, hkw⟩ := hw
    obtain ⟨p, hp, hpk⟩ := List.mem_map.mp hk
    exact saveChains_error writeOk DATA_DIR (readFile lines) htrim
      ⟨p, hp, by rw [hpk]; exact hkn, by rw [hpk]; exact hkw⟩

/-- C8 witness: `generate` on a two-line log — one real message from
`<Alice>`, one line whose identity field `@` normalizes to the empty string —
errors when directory creation fails, persists exactly the identity `<alice`
when all writes succeed, and errors when the write for `<alice` fails. -/
theorem c8_witness :
    generate false (fun _ => true) DATA_DIR
        ["d t <Alice> hello".data, "d t @ x".data] = Except.error () ∧
    generate true (fun _ => true) DATA_DIR
        ["d t <Alice> hello".data, "d t @ x".data] = Except.ok ["<alice".data] ∧
    generate true (fun _ => false) DATA_DIR
        ["d t <Alice> hello".data, "d t @ x".data] = Except.error () := by
  refine ⟨?_, ?_, ?_⟩
  · exact (c8_generate ["d t <Alice> hello".data, "d t @ x".data]
      false (fun _ => true)).1 rfl
  · have h := ((c8_generate ["d t <Alice> hello".data, "d t @ x".data]
      true (fun _ => true)).2 rfl).1 (by decide)
    rw [h]
    rfl
  · exact ((c8_generate ["d t <Alice> hello".data, "d t @ x".data]
      true (fun _ => false)).2 rfl).2 ⟨"<alice".data, by decide, by decide, rfl⟩

/-! ### Claim C10 — the unwrap in `read_file` is safe -/

/-- C10: after the conditional insert at the top of `read_file`'s `Yield` arm,
the map always contains a chain for the entry's nick, for **every** map the
loop can be in: the `unwrap` after `get_mut` can never panic.  (The `Yield`
arm of `feedEntry` performs exactly this insert before its lookup.) -/
theorem c10_unwrap_safe (m : List (List Char × Chain)) (nick : List Char) :
    (hmGet (insertIfAbsent m nick) nick).isSome = true := by
  unfold insertIfAbsent
  cases h : hmGet m nick with
  | some c =>
    rw [if_neg (by simp)]
    rw [h]
    rfl
  | none =>
    rw [if_pos rfl]
    rw [hmGet_append_of_none m [(nick, Chain.new nick)] nick h]
    simp [hmGet]

end Charliebot
